import Mathlib

/-!
Verification development for the `aws-apigw-invoke-transport` repository.

The Go sources are shallowly embedded: strings are lists of characters,
Go maps are association lists carrying an iteration order, fallible code
returns `Except`, and the provider SDK client is a deterministic value
(its fetch outcome) plus an invoke function.  The Go `regexp` engine is
modelled only on the fragment of patterns that `resourceRegex` emits
(escaped literals, the `([^/]+)` capture group, and `^`/`$` anchors);
acceptance is existence of a full match, which is what `MatchString`
decides on anchored patterns.
-/

/-- Model of Go strings: a list of characters. -/
abbrev Str := List Char

/-- The opening brace character. -/
def lbrace : Char := '\x7b'

/-- The closing brace character. -/
def rbrace : Char := '\x7d'

/-- The characters Go `regexp.QuoteMeta` escapes (its `specialBytes` set). -/
def isSpecial (c : Char) : Bool :=
  c = '\\' || c = '.' || c = '+' || c = '*' || c = '?' || c = '(' || c = ')' ||
  c = '|' || c = '[' || c = ']' || c = lbrace || c = rbrace || c = '^' || c = '$'

/-- How `regexp.QuoteMeta` renders one character. -/
def escChar (c : Char) : Str := if isSpecial c then ['\\', c] else [c]

/-- Go `regexp.QuoteMeta`: escape every regex metacharacter with a backslash. -/
def quoteMeta (s : Str) : Str := (s.map escChar).flatten

/-- Largest index at which `c` occurs in a list, if any. -/
def lastIdxOf (c : Char) : Str → Option Nat
  | [] => none
  | a :: rest =>
    match lastIdxOf c rest with
    | some i => some (i + 1)
    | none => if a = c then some 0 else none

/-- Position of the final `}` chosen by the greedy `[^/]+` of the rewrite
pattern `\\{[^/]+\}`: the largest index of `}` in the non-slash run,
provided at least one character precedes it. -/
def lastCloseIdx (run : Str) : Option Nat :=
  match lastIdxOf rbrace run with
  | some l => if 1 ≤ l then some l else none
  | none => none

/-- The replacement text for a placeholder: a capture group for one or
more non-slash characters. -/
def groupToken : Str := "([^/]+)".toList

/-- Fuelled scanner implementing the placeholder rewrite; the fuel is only
a structural-recursion device, `replacePlaceholders` supplies enough of
it for the scan to complete. -/
def rpAux : Nat → Str → Str
  | _, [] => []
  | 0, _ :: _ => []
  | fuel + 1, a :: rest =>
    if a = '\\' ∧ rest.head? = some lbrace then
      match lastCloseIdx (rest.tail.takeWhile (fun c => c ≠ '/')) with
      | some l => groupToken ++ rpAux fuel (rest.tail.drop (l + 1))
      | none => a :: rpAux fuel rest
    else a :: rpAux fuel rest

/-- Go `regexp.MustCompile("\\\\{[^/]+\\}").ReplaceAllString(s, "([^/]+)")`:
scan left to right; at each occurrence of backslash-brace, the greedy
`[^/]+` plus the closing `}` consume up to the last `}` of the following
non-slash run, and the whole match is replaced by `([^/]+)`. -/
def replacePlaceholders (s : Str) : Str := rpAux s.length s

/-- `resourceRegex` from `mapping.go`: quote the key, replace each escaped
placeholder by a capture group, and anchor the whole expression.  The
model returns the pattern string; compilation cannot fail on these
patterns, so the Go error path is vacuous. -/
def resourceRegex (key : Str) : Str :=
  '^' :: (replacePlaceholders (quoteMeta key) ++ ['$'])

/-- `endpointKey` from `mapping.go`: `fmt.Sprintf("%s#%s", method, path)`. -/
def endpointKey (method path : Str) : Str := method ++ '#' :: path

/-- Items of the pattern fragment `resourceRegex` emits: escaped/plain
literal characters and the `([^/]+)` capture group. -/
inductive PItem where
  | lit (c : Char)
  | grp
deriving DecidableEq

/-- Render one pattern item back to pattern text. -/
def emitItem : PItem → Str
  | .lit c => escChar c
  | .grp => groupToken

/-- Render a list of pattern items to pattern text. -/
def emit (its : List PItem) : Str := (its.map emitItem).flatten

/-- Fuelled parser for the pattern fragment; the fuel is only a
structural-recursion device, `parseRE` supplies enough of it. -/
def parseAux : Nat → Str → Option (List PItem)
  | _, [] => some []
  | 0, _ :: _ => none
  | fuel + 1, a :: rest =>
    if a = '(' ∧ groupToken.isPrefixOf (a :: rest) then
      (parseAux fuel ((a :: rest).drop 7)).map (fun its => PItem.grp :: its)
    else if a = '\\' then
      match rest.head? with
      | none => none
      | some c => (parseAux fuel rest.tail).map (fun its => PItem.lit c :: its)
    else if isSpecial a then none
    else (parseAux fuel rest).map (fun its => PItem.lit a :: its)

/-- Parse the pattern fragment emitted by `resourceRegex` (body between the
anchors): the `([^/]+)` token, backslash-escaped literals, and plain
non-special literal characters.  Patterns outside the fragment are not
modelled. -/
def parseRE (s : Str) : Option (List PItem) := parseAux s.length s

/-- Helper for the `([^/]+)` group: consume one or more non-slash
characters, then hand the remaining subject to the continuation. -/
def grpScan (next : Str → Bool) : Str → Bool
  | [] => false
  | d :: s => if d = '/' then false else (next s || grpScan next s)

/-- Full-match acceptance for a list of pattern items (the model of the
compiled, anchored regex): literals match themselves, the group matches
one or more non-slash characters.  Acceptance is existential, as for a
real regex engine. -/
def matchItems : List PItem → Str → Bool
  | [], s => s.isEmpty
  | .lit c :: its, s =>
    match s with
    | [] => false
    | d :: s' => if c = d then matchItems its s' else false
  | .grp :: its, s => grpScan (matchItems its) s

/-- Model of `regexp.MatchString` for the anchored patterns produced by
`resourceRegex`: strip `^` and `$`, parse the body, and decide whether
the body matches the whole subject string. -/
def regexAccepts (pattern : Str) (s : Str) : Bool :=
  match pattern with
  | [] => false
  | a :: rest =>
    if a = '^' ∧ rest.getLast? = some '$' then
      match parseRE rest.dropLast with
      | some its => matchItems its s
      | none => false
    else false

/-- A path template segment: a literal segment or a brace-delimited
placeholder segment. -/
inductive Seg where
  | lit (s : Str)
  | ph (name : Str)
deriving DecidableEq

/-- Render a segment as it appears in the resource path. -/
def Seg.render : Seg → Str
  | .lit s => s
  | .ph n => lbrace :: (n ++ [rbrace])

/-- Render a template path: slash-separated segments. -/
def renderPath (segs : List Seg) : Str := (segs.map (fun sg => '/' :: sg.render)).flatten

/-- The pattern items a segment compiles to. -/
def segItems : Seg → List PItem
  | .lit s => ('/' :: s).map .lit
  | .ph _ => [.lit '/', .grp]

/-- The pattern items a template path compiles to. -/
def segsItems (segs : List Seg) : List PItem := (segs.map segItems).flatten

/-- Well-formedness of a template segment: literal segments contain no
opening brace; placeholder names are non-empty and contain no slash and
no closing brace. -/
def segWF : Seg → Bool
  | .lit s => decide (lbrace ∉ s)
  | .ph n => decide (n ≠ []) && decide ('/' ∉ n) && decide (rbrace ∉ n)

/-- The concrete instances of a template path: each placeholder segment is
replaced by an arbitrary non-empty value of non-slash characters, and
each literal segment by itself. -/
inductive IsInst : List Seg → Str → Prop where
  | nil : IsInst [] []
  | lit (x : Str) (t : Str) (rest : List Seg) :
      IsInst rest t → IsInst (Seg.lit x :: rest) ('/' :: x ++ t)
  | ph (n v t : Str) (rest : List Seg) :
      v ≠ [] → (∀ c ∈ v, c ≠ '/') → IsInst rest t →
      IsInst (Seg.ph n :: rest) ('/' :: v ++ t)

/-- Model of Go error values: sentinel errors (`errors.New` package-level
values, compared by identity), wrapped errors (`fmt.Errorf` with `%w`),
and plain formatted errors (`fmt.Errorf` without `%w`). -/
inductive GoError where
  | sentinel (msg : Str)
  | wrapped (ctx : Str) (cause : GoError)
  | plain (msg : Str)
deriving DecidableEq

/-- The message of an error: wrapping concatenates the context in front of
the cause's message. -/
def errMsg : GoError → Str
  | .sentinel m => m
  | .plain m => m
  | .wrapped ctx e => ctx ++ errMsg e

/-- Model of Go `errors.Is`: the target is found by identity along the
`Unwrap` chain; a plain formatted error never matches a sentinel. -/
def errIs : GoError → GoError → Bool
  | .wrapped ctx c, t => decide (GoError.wrapped ctx c = t) || errIs c t
  | e, t => decide (e = t)

/-- `ErrResourceNotFound` from the transport source. -/
def ErrResourceNotFound : GoError := .sentinel "resource not found".toList

/-- A mapping entry: the AWS resource id and the compiled pattern string
(the `regexp` value is represented by its pattern text). -/
structure Res where
  id : Str
  pattern : Str
deriving DecidableEq

/-- `resourceMapping` (a Go map): an association list carrying the map's
iteration order. -/
abbrev resourceMapping := List (Str × Res)

/-- Insertion into the Go map: overwrite the entry with the same key, or
append a new one. -/
def insertEntry (k : Str) (v : Res) : resourceMapping → resourceMapping
  | [] => [(k, v)]
  | (k', v') :: rest => if k' = k then (k, v) :: rest else (k', v') :: insertEntry k v rest

/-- One resource item of the provider's `GetResources` output: id, path and
the supported methods (`ResourceMethods` keys, in iteration order). -/
structure ResourceItem where
  id : Str
  path : Str
  methods : List Str

/-- `resourceMapping.add` from `mapping.go`: derive the key, compile its
pattern and insert the entry.  Compilation cannot fail on quoted keys, so
the Go error path is vacuous in the model. -/
def addResource (m : resourceMapping) (r : ResourceItem) (method : Str) : resourceMapping :=
  insertEntry (endpointKey method r.path) ⟨r.id, resourceRegex (endpointKey method r.path)⟩ m

/-- The table-building loop of `mapEndpointResources`. -/
def mapResources (items : List ResourceItem) : resourceMapping :=
  items.foldl (fun m r => r.methods.foldl (fun m' method => addResource m' r method) m) []

/-- `mapEndpointResources` from `mapping.go`: fetch the resources and build
the table; a fetch error is wrapped with `"get resources error: "`. -/
def mapEndpointResources (fetch : Except GoError (List ResourceItem)) :
    Except GoError resourceMapping :=
  match fetch with
  | .error e => .error (.wrapped "get resources error: ".toList e)
  | .ok items => .ok (mapResources items)

/-- `matchResourceID` from `mapping.go`: exact key lookup first, then the
first entry (in iteration order) whose compiled pattern accepts the key. -/
def matchResourceID (m : resourceMapping) (method path : Str) : Option Str :=
  match m.find? (fun e => decide (e.1 = endpointKey method path)) with
  | some e => some e.2.id
  | none =>
    match m.find? (fun e => regexAccepts e.2.pattern (endpointKey method path)) with
    | some e => some e.2.id
    | none => none

/-- Resolution as the spec describes it (claim C1's wording): an exact
lookup of the serialized key, falling back to the first entry whose
matcher accepts the key, else not-found. -/
def resolveSpec (m : resourceMapping) (method path : Str) : Option Str :=
  match m.lookup (endpointKey method path) with
  | some r => some r.id
  | none =>
    (m.find? (fun e => regexAccepts e.2.pattern (endpointKey method path))).map
      (fun e => e.2.id)

/-- Rewrite every compiled matcher of a table with `f`, leaving keys and
resource ids unchanged (used to state that an exact hit never consults
the matchers). -/
def mapPatterns (f : Str → Str) (m : resourceMapping) : resourceMapping :=
  m.map (fun e => (e.1, ⟨e.2.id, f e.2.pattern⟩))

/-- Model of `url.URL`: host, path and raw query. -/
structure GoURL where
  host : Str
  path : Str
  rawQuery : Str
deriving DecidableEq

/-- `url.URL.RequestURI()` for these URLs: the path, followed by `?` and
the raw query when the raw query is non-empty. -/
def requestURI (u : GoURL) : Str :=
  u.path ++ (if u.rawQuery = [] then [] else '?' :: u.rawQuery)

/-- The request body: `nil`, the explicit `http.NoBody` marker, or a
reader whose full read yields contents or an error. -/
inductive ReqBody where
  | nil
  | noBody
  | reader (contents : Except GoError Str)

/-- Model of `*http.Request`: the fields the transport reads. -/
structure HttpRequest where
  method : Str
  url : GoURL
  header : List (Str × List Str)
  body : ReqBody
  proto : Str
  protoMajor : Nat
  protoMinor : Nat

/-- Go `strings.Split` with a one-character separator. -/
def splitOnChar (c : Char) : Str → List Str
  | [] => [[]]
  | a :: rest =>
    if a = c then [] :: splitOnChar c rest
    else
      match splitOnChar c rest with
      | [] => [[a]]
      | g :: gs => (a :: g) :: gs

/-- Go `strings.Join` with a one-character separator. -/
def intercalateChar (c : Char) : List Str → Str
  | [] => []
  | [g] => g
  | g :: gs => g ++ c :: intercalateChar c gs

/-- Value of a hexadecimal digit character. -/
def hexVal (c : Char) : Option Nat :=
  if '0' ≤ c ∧ c ≤ '9' then some (c.toNat - '0'.toNat)
  else if 'a' ≤ c ∧ c ≤ 'f' then some (c.toNat - 'a'.toNat + 10)
  else if 'A' ≤ c ∧ c ≤ 'F' then some (c.toNat - 'A'.toNat + 10)
  else none

/-- Go `url.QueryUnescape`: `%` must be followed by two hex digits, `+`
decodes to a space; failure yields `none`. -/
def queryUnescape : Str → Option Str
  | [] => some []
  | '%' :: rest =>
    match rest with
    | a :: b :: rest' =>
      match hexVal a, hexVal b with
      | some x, some y => (queryUnescape rest').map (fun t => Char.ofNat (16 * x + y) :: t)
      | _, _ => none
    | _ => none
  | '+' :: rest => (queryUnescape rest).map (fun t => ' ' :: t)
  | c :: rest => (queryUnescape rest).map (fun t => c :: t)

/-- Go `strings.Cut` at the first occurrence of `c`: the part before and
the part after (the whole string and `[]` when `c` is absent). -/
def cutAt (c : Char) : Str → Str × Str
  | [] => ([], [])
  | a :: rest =>
    if a = c then ([], rest)
    else ((cutAt c rest).1.cons a, (cutAt c rest).2)

/-- One `&`-separated component of Go `url.ParseQuery`: skipped when it is
empty, contains a semicolon, or a key/value fails to unescape. -/
def parseQueryPart (part : Str) : Option (Str × Str) :=
  if ';' ∈ part then none
  else if part = [] then none
  else
    match queryUnescape (cutAt '=' part).1, queryUnescape (cutAt '=' part).2 with
    | some k, some v => some (k, v)
    | _, _ => none

/-- Go `url.URL.Query()`: parse the raw query, dropping malformed parts
(`Query` discards the error `ParseQuery` reports for them). -/
def parseQuery (q : Str) : List (Str × Str) :=
  if q = [] then [] else (splitOnChar '&' q).filterMap parseQueryPart

/-- Model of `apigateway.TestInvokeMethodInput`. -/
structure InvokeInput where
  httpMethod : Str
  resourceId : Str
  restApiId : Str
  body : Option Str
  multiValueHeaders : List (Str × List Str)
  pathWithQueryString : Str
deriving DecidableEq

/-- The body-reading prefix of `createInvokeInput`: `nil` and `http.NoBody`
leave the input body unset; a readable body is set verbatim (an empty
read yields an empty-string body, still set); a read failure is wrapped. -/
def readBody : ReqBody → Except GoError (Option Str)
  | .nil => .ok none
  | .noBody => .ok none
  | .reader (.ok s) => .ok (some s)
  | .reader (.error e) => .error (.wrapped "read request body error: ".toList e)

/-- `createInvokeInput` from the transport source: read the body, append
`?raw-query` to the path when the parsed query is non-empty, and copy
method, resource id, api id and headers. -/
def createInvokeInput (r : HttpRequest) (apiID resourceID path : Str) :
    Except GoError InvokeInput :=
  match readBody r.body with
  | .error e => .error e
  | .ok body =>
    .ok ⟨r.method, resourceID, apiID, body, r.header,
      if parseQuery r.url.rawQuery ≠ [] then path ++ '?' :: r.url.rawQuery else path⟩

/-- Model of `apigateway.TestInvokeMethodOutput`: numeric status, optional
body pointer, multi-value headers. -/
structure InvokeOutput where
  status : Int
  body : Option Str
  multiValueHeaders : List (Str × List Str)
deriving DecidableEq

/-- Model of `*http.Response`: the fields `createHTTPResponse` sets (the
status text derives from the code via Go's status-text table and is not
modelled). -/
structure HttpResponse where
  statusCode : Int
  proto : Str
  protoMajor : Nat
  protoMinor : Nat
  header : List (Str × List Str)
  body : Str
  contentLength : Int
deriving DecidableEq

/-- UTF-8 byte size of one character (Go `len` counts bytes). -/
def charUtf8Size (c : Char) : Nat :=
  if c.toNat < 0x80 then 1
  else if c.toNat < 0x800 then 2
  else if c.toNat < 0x10000 then 3
  else 4

/-- UTF-8 byte length of a string, as Go `len(string)` reports it. -/
def utf8Len (s : Str) : Nat := (s.map charUtf8Size).sum

/-- `createHTTPResponse` from the transport source.  The body pointer is
dereferenced unconditionally; `none` models the nil-pointer dereference
(a run-time panic). -/
def createHTTPResponse (r : HttpRequest) (out : InvokeOutput) : Option HttpResponse :=
  match out.body with
  | none => none
  | some b =>
    some ⟨out.status, r.proto, r.protoMajor, r.protoMinor, out.multiValueHeaders, b,
      (utf8Len b : Int)⟩

/-- Go `strings.Contains`. -/
def listContains (s sub : Str) : Bool :=
  (List.range (s.length + 1)).any (fun i => sub.isPrefixOf (s.drop i))

/-- `isInvokeURL` from the transport source: the request host contains the
computed invoke host as a substring. -/
def isInvokeURL (u : GoURL) (invokeHost : Str) : Bool := listContains u.host invokeHost

/-- `removeStagePathPart` from the transport source: drop the leading stage
segment when the path contains a separator. -/
def removeStagePathPart (path : Str) : Str :=
  if (splitOnChar '/' path).length > 1 then
    '/' :: intercalateChar '/' ((splitOnChar '/' path).drop 2)
  else path

/-- The effective lookup path computed at the top of `RoundTrip`: strip the
stage segment exactly when the URL is an invoke URL. -/
def effectiveLookupPath (u : GoURL) (invokeHost : Str) : Str :=
  if isInvokeURL u invokeHost then removeStagePathPart u.path else u.path

/-- The resolution stage of `RoundTrip`: effective path, then table lookup. -/
def resolveRequest (m : resourceMapping) (invokeHost : Str) (method : Str) (u : GoURL) :
    Option Str :=
  matchResourceID m method (effectiveLookupPath u invokeHost)

/-- The mutable transport fields: the table, the `sync.Once` guard state,
and the cached initialization error. -/
structure TransportState where
  mapping : resourceMapping
  onceDone : Bool
  initErr : Option GoError
deriving DecidableEq

/-- A freshly constructed transport: nothing mapped, `once` not yet run. -/
def initialTransportState : TransportState := ⟨[], false, none⟩

/-- `initMappings`: under the once-guard, fetch and build the table, caching
the outcome; afterwards replay the cached outcome.  Returns the new state,
the returned error, and how many provider fetches this call performed. -/
def initMappings (fetch : Except GoError (List ResourceItem)) (s : TransportState) :
    TransportState × Option GoError × Nat :=
  if s.onceDone then (s, s.initErr, 0)
  else
    match mapEndpointResources fetch with
    | .ok m => (⟨m, true, none⟩, none, 1)
    | .error e => (⟨[], true, some e⟩, some e, 1)

/-- The per-instance collaborator configuration: api id, computed invoke
host, the provider's fetch outcome and invoke behaviour. -/
structure Config where
  apiID : Str
  invokeURLHost : Str
  fetch : Except GoError (List ResourceItem)
  invoke : InvokeInput → Except GoError InvokeOutput

/-- A round-trip outcome: a response, an error, or the body-pointer panic
inside `createHTTPResponse`. -/
inductive RTResult where
  | ok (resp : HttpResponse)
  | err (e : GoError)
  | crash
deriving DecidableEq

/-- `RoundTrip` from the transport source: initialize the table, compute
the effective path, resolve the resource, build the invoke input, call
the provider and translate the output.  Returns the state after the call,
the outcome, and the numbers of fetch and invoke calls performed. -/
def roundTrip (cfg : Config) (s : TransportState) (r : HttpRequest) :
    TransportState × RTResult × Nat × Nat :=
  match initMappings cfg.fetch s with
  | (s1, some e, nf) => (s1, .err e, nf, 0)
  | (s1, none, nf) =>
    match matchResourceID s1.mapping r.method (effectiveLookupPath r.url cfg.invokeURLHost) with
    | none =>
      (s1, .err (.plain (errMsg ErrResourceNotFound ++ " for path ".toList ++ requestURI r.url)),
        nf, 0)
    | some rid =>
      match createInvokeInput r cfg.apiID rid (effectiveLookupPath r.url cfg.invokeURLHost) with
      | .error e => (s1, .err (.wrapped "create invoke input error: ".toList e), nf, 0)
      | .ok input =>
        match cfg.invoke input with
        | .error e => (s1, .err (.wrapped "invoke error: ".toList e), nf, 1)
        | .ok out =>
          match createHTTPResponse r out with
          | none => (s1, .crash, nf, 1)
          | some resp => (s1, .ok resp, nf, 1)

/-- Claim C6's stripping rule as the claim states it: strip the stage
segment exactly when the request host equals the computed invoke host. -/
def effectivePathClaimC6 (host invokeHost path : Str) : Str :=
  if host = invokeHost then removeStagePathPart path else path

/-- The amended stripping rule: strip exactly when the request host
contains the invoke host as a substring, which is what the code's
`strings.Contains` test does. -/
def effectivePathAmendedC6 (host invokeHost path : Str) : Str :=
  if listContains host invokeHost then removeStagePathPart path else path

/-- The resource items of the repository's own test fixture
(`createResources` in `transport_test.go`). -/
def fixtureItems : List ResourceItem :=
  [ ⟨"b7e20b3a4".toList, "/".toList, []⟩,
    ⟨"9b0826".toList, "/api".toList, []⟩,
    ⟨"7f4b77".toList, "/api/v1".toList, []⟩,
    ⟨"8143a9".toList, "/api/v1/users".toList,
      ["POST".toList, "PUT".toList, "PATCH".toList]⟩,
    ⟨"2cb3ff".toList,
      renderPath [Seg.lit "api".toList, Seg.lit "v1".toList, Seg.lit "users".toList,
        Seg.ph "value".toList],
      ["GET".toList, "DELETE".toList]⟩ ]

/-- The mapping table built from the test fixture. -/
def fixtureMapping : resourceMapping := mapResources fixtureItems

/-- The invoke host of the test fixture
(`ortup5gufx.execute-api.us-east-1.amazonaws.com`). -/
def fixtureInvokeHost : Str := "ortup5gufx.execute-api.us-east-1.amazonaws.com".toList

/-- A provider configuration whose fetch succeeds with the test fixture and
whose invoke is never expected to be reached. -/
def fixtureCfg : Config :=
  ⟨"ortup5gufx".toList, fixtureInvokeHost, .ok fixtureItems,
    fun _ => .error (.sentinel "unexpected invoke".toList)⟩

/-- A GET request for an undeclared path on a custom domain. -/
def notFoundReq : HttpRequest :=
  ⟨"GET".toList, ⟨"custom-domain.com".toList, "/api/v1/posts".toList, []⟩, [], .noBody,
    "HTTP/1.1".toList, 1, 1⟩

/-- A GET request whose raw query is `&` (non-empty, but parsing to no
key/value pairs). -/
def ampQueryReq : HttpRequest :=
  ⟨"GET".toList, ⟨"custom-domain.com".toList, "/api/v1/users".toList, "&".toList⟩, [],
    .noBody, "HTTP/1.1".toList, 1, 1⟩

/-- A GET request with the query string `attributes=age`. -/
def attrQueryReq : HttpRequest :=
  ⟨"GET".toList,
    ⟨"custom-domain.com".toList, "/api/v1/users/john.doe".toList, "attributes=age".toList⟩,
    [], .noBody, "HTTP/1.1".toList, 1, 1⟩

/-- The provider error used to exercise the failure paths. -/
def boomErr : GoError := .sentinel "boom".toList

/-- The wrapped form of `boomErr` that a failed fetch caches. -/
def wrappedBoom : GoError := .wrapped "get resources error: ".toList boomErr

/-- The transport state after a failed first initialization against
`boomErr`. -/
def failedState : TransportState := ⟨[], true, some wrappedBoom⟩

/-- A configuration whose provider fetch fails with `boomErr`. -/
def boomCfg : Config :=
  ⟨"ortup5gufx".toList, fixtureInvokeHost, .error boomErr,
    fun _ => .error (.sentinel "unexpected invoke".toList)⟩

/-- A host that strictly contains the fixture invoke host as a substring. -/
def evilHost : Str := "evil-ortup5gufx.execute-api.us-east-1.amazonaws.com".toList

/-- A request carrying no body at all (`r.Body == nil`). -/
def nilBodyReq : HttpRequest :=
  ⟨"GET".toList, ⟨"custom-domain.com".toList, "/api/v1/users/john.doe".toList, []⟩, [],
    .nil, "HTTP/1.1".toList, 1, 1⟩

/-- A POST request carrying the body text of the repository's test fixture. -/
def postBodyReq : HttpRequest :=
  ⟨"POST".toList, ⟨"custom-domain.com".toList, "/api/v1/users".toList, []⟩, [],
    .reader (.ok "\x7b\"a\":1\x7d".toList), "HTTP/1.1".toList, 1, 1⟩

/-- A request whose body read fails with `boomErr`. -/
def bodyErrReq : HttpRequest :=
  ⟨"GET".toList, ⟨"custom-domain.com".toList, "/api/v1/users/john.doe".toList, []⟩, [],
    .reader (.error boomErr), "HTTP/1.1".toList, 1, 1⟩

/-- The transport state after a successful initialization against the test
fixture. -/
def readyState : TransportState := ⟨fixtureMapping, true, none⟩

/-! ## Theorems -/

theorem splitOnChar_ne_nil (c : Char) (s : Str) : splitOnChar c s ≠ [] := by
  induction s with
  | nil => simp [splitOnChar]
  | cons a rest ih =>
    by_cases h : a = c
    · simp [splitOnChar, h]
    · unfold splitOnChar
      rw [if_neg h]
      cases hs : splitOnChar c rest with
      | nil => simp
      | cons g gs => simp

theorem splitOnChar_length_gt_one (c : Char) (s : Str) :
    1 < (splitOnChar c s).length ↔ c ∈ s := by
  induction s with
  | nil => simp [splitOnChar]
  | cons a rest ih =>
    by_cases h : a = c
    · subst h
      unfold splitOnChar
      rw [if_pos rfl]
      simp only [List.length_cons]
      have hpos := List.length_pos.mpr (splitOnChar_ne_nil a rest)
      constructor
      · intro _
        exact List.mem_cons_self a rest
      · intro _
        omega
    · unfold splitOnChar
      rw [if_neg h]
      cases hs : splitOnChar c rest with
      | nil => exact absurd hs (splitOnChar_ne_nil c rest)
      | cons g gs =>
        simp only [List.length_cons, List.mem_cons]
        rw [hs] at ih
        simp only [List.length_cons] at ih
        constructor
        · intro hl
          exact Or.inr (ih.mp hl)
        · intro hm
          rcases hm with hm | hm
          · exact absurd hm.symm h
          · exact ih.mpr hm

/-- C10: stage-prefix stripping removes exactly the first path segment
without inspecting its value: for every path containing a `/`, the result
is `/` followed by the segments from the third split component on; a path
without `/` is returned unchanged; `/stage` and `/` both map to `/`. -/
theorem c10_remove_stage :
    (∀ p : Str, removeStagePathPart p =
      if '/' ∈ p then '/' :: intercalateChar '/' ((splitOnChar '/' p).drop 2) else p) ∧
    removeStagePathPart "/stage".toList = "/".toList ∧
    removeStagePathPart "/".toList = "/".toList ∧
    removeStagePathPart "nostage".toList = "nostage".toList := by
  refine ⟨?_, by decide, by decide, by decide⟩
  intro p
  unfold removeStagePathPart
  by_cases h : '/' ∈ p
  · rw [if_pos ((splitOnChar_length_gt_one '/' p).mpr h), if_pos h]
  · rw [if_neg ?_, if_neg h]
    intro hl
    exact h ((splitOnChar_length_gt_one '/' p).mp hl)

theorem listContains_self (s : Str) : listContains s s = true := by
  unfold listContains
  rw [List.any_eq_true]
  refine ⟨0, List.mem_range.mpr (Nat.succ_pos _), ?_⟩
  rw [List.drop_zero]
  exact List.isPrefixOf_iff_prefix.mpr (List.prefix_refl s)

/-- C6 (counterexample): the code strips the stage segment for a host that
merely contains the invoke host as a substring, while the claim's rule
(strip exactly when the host matches the transport's computed invoke
host) leaves such a path unchanged. -/
theorem c6_counterexample :
    effectiveLookupPath ⟨evilHost, "/stage/api/v1/users/john.doe".toList, []⟩ fixtureInvokeHost
        = "/api/v1/users/john.doe".toList ∧
    effectivePathClaimC6 evilHost fixtureInvokeHost "/stage/api/v1/users/john.doe".toList
        = "/stage/api/v1/users/john.doe".toList ∧
    evilHost ≠ fixtureInvokeHost ∧
    ("/api/v1/users/john.doe".toList : Str) ≠ "/stage/api/v1/users/john.doe".toList := by
  decide

/-- C6 (amended): the leading stage segment is stripped exactly when the
request host contains the computed invoke host as a substring
(`strings.Contains`); in particular a host equal to the invoke host is
stripped, and a custom domain not containing it is left unchanged. -/
theorem c6_amended :
    (∀ (u : GoURL) (ih : Str),
      effectiveLookupPath u ih = effectivePathAmendedC6 u.host ih u.path) ∧
    (∀ (ih p q : Str), effectiveLookupPath ⟨ih, p, q⟩ ih = removeStagePathPart p) ∧
    effectiveLookupPath ⟨"custom-domain.com".toList, "/stage/api".toList, []⟩ fixtureInvokeHost
      = "/stage/api".toList := by
  refine ⟨fun u ih => rfl, fun ih p q => ?_, by decide⟩
  unfold effectiveLookupPath isInvokeURL
  rw [if_pos (listContains_self ih)]

/-- C9 (counterexample): a raw query of `&` is non-empty, yet the invoke
input path carries no `?` because the parsed query (`r.URL.Query()`) is
empty — refuting "appended exactly when the request has a non-empty query
string". -/
theorem c9_counterexample :
    ampQueryReq.url.rawQuery ≠ [] ∧
    (createInvokeInput ampQueryReq "ortup5gufx".toList "8143a9".toList
        "/api/v1/users".toList).map (fun i => i.pathWithQueryString)
      = .ok "/api/v1/users".toList ∧
    ("/api/v1/users".toList : Str) ≠ "/api/v1/users".toList ++ '?' :: ampQueryReq.url.rawQuery :=
  ⟨by decide, by rfl, by decide⟩

/-- C9 (amended): the invoke input path is the effective path with
`?raw-query` appended exactly when the request's parsed query
(`r.URL.Query()`) is non-empty; a raw query that parses to no key/value
pairs gets nothing appended. -/
theorem c9_amended (r : HttpRequest) (apiID rid path : Str) (inp : InvokeInput)
    (h : createInvokeInput r apiID rid path = .ok inp) :
    inp.pathWithQueryString =
      if parseQuery r.url.rawQuery ≠ [] then path ++ '?' :: r.url.rawQuery else path := by
  unfold createInvokeInput at h
  cases hb : readBody r.body with
  | error e => rw [hb] at h; exact absurd h (by simp)
  | ok body =>
    rw [hb] at h
    simp only [Except.ok.injEq] at h
    rw [← h]

theorem c9_amended_witness :
    (⟨"GET".toList, "2cb3ff".toList, "ortup5gufx".toList, none, [],
        "/api/v1/users/john.doe?attributes=age".toList⟩ : InvokeInput).pathWithQueryString =
      if parseQuery attrQueryReq.url.rawQuery ≠ [] then
        "/api/v1/users/john.doe".toList ++ '?' :: attrQueryReq.url.rawQuery
      else "/api/v1/users/john.doe".toList :=
  c9_amended attrQueryReq "ortup5gufx".toList "2cb3ff".toList
    "/api/v1/users/john.doe".toList _ rfl

/-- C7: for every invoke output carrying a body pointer, the constructed
response has the output's numeric status, the output's multi-value
headers copied as-is (zero entries stay zero entries), the output's body
text with content length its UTF-8 byte length, and the request's
protocol fields. -/
theorem c7_response_fields (r : HttpRequest) (out : InvokeOutput) (b : Str)
    (h : out.body = some b) :
    createHTTPResponse r out =
      some ⟨out.status, r.proto, r.protoMajor, r.protoMinor, out.multiValueHeaders, b,
        (utf8Len b : Int)⟩ := by
  unfold createHTTPResponse
  rw [h]

theorem c7_response_fields_witness :
    createHTTPResponse nilBodyReq ⟨204, some [], []⟩ =
      some ⟨204, "HTTP/1.1".toList, 1, 1, [], [], 0⟩ :=
  c7_response_fields nilBodyReq ⟨204, some [], []⟩ [] rfl

/-- C8 (counterexample): on an invoke output whose body pointer is absent,
the translation does not complete — `*out.Body` is a nil dereference,
modelled as `none` — refuting "must not cause a panic". -/
theorem c8_counterexample :
    (createHTTPResponse nilBodyReq ⟨204, none, []⟩).isSome = false := by
  decide

/-- C8 (amended): the translation completes without panicking for every
invoke output whose body pointer is present; an absent body pointer makes
the unconditional dereference fail (a nil-pointer panic), so the caller
invariant that a body is always present is required. -/
theorem c8_amended (r : HttpRequest) (out : InvokeOutput) (b : Str)
    (h : out.body = some b) :
    (createHTTPResponse r out).isSome = true := by
  unfold createHTTPResponse
  rw [h]
  rfl

theorem c8_amended_witness :
    (createHTTPResponse nilBodyReq ⟨204, some [], []⟩).isSome = true :=
  c8_amended nilBodyReq ⟨204, some [], []⟩ [] rfl

/-- C4: body translation of `createInvokeInput` — `nil`/`http.NoBody`
leave the invoke body unset, a non-empty read body is set verbatim, and
a body-read failure aborts with the wrapped error; at round-trip level
the failure surfaces before any provider invoke call. -/
theorem c4_body_translation (r : HttpRequest) (apiID rid path : Str) :
    ((r.body = .nil ∨ r.body = .noBody) →
      (createInvokeInput r apiID rid path).map (fun i => i.body) = .ok none) ∧
    (∀ s, r.body = .reader (.ok s) → s ≠ [] →
      (createInvokeInput r apiID rid path).map (fun i => i.body) = .ok (some s)) ∧
    (∀ e, r.body = .reader (.error e) →
      createInvokeInput r apiID rid path =
        .error (.wrapped "read request body error: ".toList e)) ∧
    (∀ (cfg : Config) (st : TransportState) (e : GoError) (rid2 : Str),
      st.onceDone = true → st.initErr = none →
      r.body = .reader (.error e) →
      matchResourceID st.mapping r.method (effectiveLookupPath r.url cfg.invokeURLHost)
        = some rid2 →
      (roundTrip cfg st r).2.1 =
          .err (.wrapped "create invoke input error: ".toList
            (.wrapped "read request body error: ".toList e)) ∧
        (roundTrip cfg st r).2.2.2 = 0) := by
  refine ⟨?_, ?_, ?_, ?_⟩
  · intro h
    rcases h with h | h <;> simp [createInvokeInput, readBody, h, Except.map]
  · intro s h _
    simp [createInvokeInput, readBody, h, Except.map]
  · intro e h
    simp [createInvokeInput, readBody, h]
  · intro cfg st e rid2 h1 h2 h3 hm
    have hinit : initMappings cfg.fetch st = (st, (none : Option GoError), 0) := by
      simp [initMappings, h1, h2]
    have hcii : createInvokeInput r cfg.apiID rid2 (effectiveLookupPath r.url cfg.invokeURLHost)
        = .error (.wrapped "read request body error: ".toList e) := by
      simp [createInvokeInput, readBody, h3]
    unfold roundTrip
    rw [hinit]
    simp [hm, hcii]

theorem c4_body_translation_witness :
    (createInvokeInput nilBodyReq "ortup5gufx".toList "2cb3ff".toList
        "/api/v1/users/john.doe".toList).map (fun i => i.body) = .ok none ∧
    (createInvokeInput postBodyReq "ortup5gufx".toList "8143a9".toList
        "/api/v1/users".toList).map (fun i => i.body)
      = .ok (some "\x7b\"a\":1\x7d".toList) ∧
    createInvokeInput bodyErrReq "ortup5gufx".toList "2cb3ff".toList
        "/api/v1/users/john.doe".toList =
      .error (.wrapped "read request body error: ".toList boomErr) ∧
    ((roundTrip fixtureCfg readyState bodyErrReq).2.1 =
        .err (.wrapped "create invoke input error: ".toList
          (.wrapped "read request body error: ".toList boomErr)) ∧
      (roundTrip fixtureCfg readyState bodyErrReq).2.2.2 = 0) := by
  refine ⟨?_, ?_, ?_, ?_⟩
  · exact (c4_body_translation nilBodyReq "ortup5gufx".toList "2cb3ff".toList
      "/api/v1/users/john.doe".toList).1 (Or.inl rfl)
  · exact (c4_body_translation postBodyReq "ortup5gufx".toList "8143a9".toList
      "/api/v1/users".toList).2.1 "\x7b\"a\":1\x7d".toList rfl (by decide)
  · exact (c4_body_translation bodyErrReq "ortup5gufx".toList "2cb3ff".toList
      "/api/v1/users/john.doe".toList).2.2.1 boomErr rfl
  · exact (c4_body_translation bodyErrReq "ortup5gufx".toList "2cb3ff".toList
      "/api/v1/users/john.doe".toList).2.2.2 fixtureCfg readyState boomErr
      "2cb3ff".toList rfl rfl rfl (by decide)

theorem roundTrip_cached_err (cfg : Config) (s : TransportState) (req : HttpRequest)
    (e : GoError) (h : initMappings cfg.fetch s = (s, some e, 0)) :
    roundTrip cfg s req = (s, .err e, 0, 0) := by
  unfold roundTrip
  rw [h]

theorem roundTrip_cached_ok (cfg : Config) (s : TransportState) (req : HttpRequest)
    (h : initMappings cfg.fetch s = (s, none, 0)) :
    (roundTrip cfg s req).1 = s ∧ (roundTrip cfg s req).2.2.1 = 0 := by
  unfold roundTrip
  rw [h]
  simp only []
  cases hm : matchResourceID s.mapping req.method (effectiveLookupPath req.url cfg.invokeURLHost) with
  | none => simp only [hm]; exact ⟨trivial, trivial⟩
  | some rid =>
    simp only [hm]
    cases hci : createInvokeInput req cfg.apiID rid
        (effectiveLookupPath req.url cfg.invokeURLHost) with
    | error e => simp only [hci]; exact ⟨trivial, trivial⟩
    | ok inp =>
      simp only [hci]
      cases hiv : cfg.invoke inp with
      | error e => simp only [hiv]; exact ⟨trivial, trivial⟩
      | ok out =>
        simp only [hiv]
        cases hcr : createHTTPResponse req out with
        | none => simp only [hcr]; exact ⟨trivial, trivial⟩
        | some resp => simp only [hcr]; exact ⟨trivial, trivial⟩

/-- C3: the fetch and table build happen at most once per instance: after
the first `initMappings`, every later `initMappings` or `RoundTrip` call
replays the cached outcome with zero further fetches, and a fetch failure
is cached as the `"get resources error: "`-wrapped error. -/
theorem c3_init_once (f : Except GoError (List ResourceItem)) (s1 : TransportState)
    (r1 : Option GoError) (n : Nat)
    (h : initMappings f initialTransportState = (s1, r1, n)) :
    initMappings f s1 = (s1, r1, 0) ∧ n ≤ 1 ∧
    (∀ e, f = .error e → r1 = some (.wrapped "get resources error: ".toList e)) ∧
    (∀ (cfg : Config) (req : HttpRequest), cfg.fetch = f →
      (roundTrip cfg s1 req).1 = s1 ∧ (roundTrip cfg s1 req).2.2.1 = 0 ∧
      (∀ e, r1 = some e → roundTrip cfg s1 req = (s1, .err e, 0, 0))) := by
  cases f with
  | error e0 =>
    simp only [initMappings, initialTransportState, mapEndpointResources,
      Bool.false_eq_true, if_false, Prod.mk.injEq] at h
    obtain ⟨hs, hr, hn⟩ := h
    subst hs hr hn
    refine ⟨by simp [initMappings], le_rfl, ?_, ?_⟩
    · intro e he
      injection he with he
      rw [he]
    · intro cfg req hcf
      have hinit : initMappings cfg.fetch
          (⟨[], true, some (.wrapped "get resources error: ".toList e0)⟩ : TransportState) =
          (⟨[], true, some (.wrapped "get resources error: ".toList e0)⟩,
            some (.wrapped "get resources error: ".toList e0), 0) := by
        simp [initMappings]
      have hrt := roundTrip_cached_err cfg _ req _ hinit
      refine ⟨by rw [hrt], by rw [hrt], ?_⟩
      intro e he
      injection he with he
      subst he
      exact hrt
  | ok items =>
    simp only [initMappings, initialTransportState, mapEndpointResources,
      Bool.false_eq_true, if_false, Prod.mk.injEq] at h
    obtain ⟨hs, hr, hn⟩ := h
    subst hs hr hn
    refine ⟨by simp [initMappings], le_rfl, ?_, ?_⟩
    · intro e he
      exact absurd he (by simp)
    · intro cfg req hcf
      have hinit : initMappings cfg.fetch
          (⟨mapResources items, true, none⟩ : TransportState) =
          (⟨mapResources items, true, none⟩, none, 0) := by
        simp [initMappings]
      have hrt := roundTrip_cached_ok cfg _ req hinit
      refine ⟨hrt.1, hrt.2, ?_⟩
      intro e he
      exact absurd he (by simp)

theorem c3_init_once_witness :
    initMappings (.error boomErr) failedState = (failedState, some wrappedBoom, 0) ∧
    roundTrip boomCfg failedState notFoundReq = (failedState, .err wrappedBoom, 0, 0) := by
  have h := c3_init_once (.error boomErr) failedState (some wrappedBoom) 1 (by rfl)
  exact ⟨h.1, (h.2.2.2 boomCfg notFoundReq rfl).2.2 wrappedBoom rfl⟩

/-- C5 (code evaluation at the failing input): resolving an undeclared
path returns the not-found error built with `%s` (no `%w`), i.e. a plain
formatted error that does carry the request URI in its message but is
NOT matchable via `errors.Is` against `ErrResourceNotFound` — while the
claim (and the repository's own test, `assert.ErrorIs`) require it to be
matchable.  Fetch and invoke errors, by contrast, are `%w`-wrapped and
matchable. -/
theorem c5_notfound_not_matchable :
    (roundTrip fixtureCfg initialTransportState notFoundReq).2.1 =
      .err (.plain "resource not found for path /api/v1/posts".toList) ∧
    errIs (.plain "resource not found for path /api/v1/posts".toList) ErrResourceNotFound
      = false ∧
    errIs (.wrapped "invoke error: ".toList boomErr) boomErr = true ∧
    errIs wrappedBoom boomErr = true := by
  refine ⟨by rfl, by decide, by decide, by decide⟩

theorem lookup_eq_find (m : resourceMapping) (k : Str) :
    m.lookup k = (m.find? (fun e => decide (e.1 = k))).map (fun e => e.2) := by
  induction m with
  | nil => rfl
  | cons e rest ih =>
    obtain ⟨k', v⟩ := e
    by_cases h : k' = k
    · subst h
      simp [List.lookup, List.find?]
    · have h' : ¬(k = k') := fun hh => h hh.symm
      have hb : (k == k') = false := beq_eq_false_iff_ne.mpr h'
      have hd : decide (k' = k) = false := decide_eq_false h
      simp only [List.lookup, List.find?, hb, hd]
      exact ih

theorem find_mapPatterns (f : Str → Str) (m : resourceMapping) (k : Str) :
    (mapPatterns f m).find? (fun e => decide (e.1 = k)) =
      (m.find? (fun e => decide (e.1 = k))).map
        (fun e => (e.1, (⟨e.2.id, f e.2.pattern⟩ : Res))) := by
  induction m with
  | nil => rfl
  | cons e rest ih =>
    obtain ⟨k', v⟩ := e
    by_cases h : k' = k
    · subst h
      simp [mapPatterns, List.find?]
    · have hd : decide (k' = k) = false := decide_eq_false h
      simp only [mapPatterns, List.map_cons, List.find?, hd]
      have ih2 := ih
      simp only [mapPatterns] at ih2
      exact ih2

/-- C1: `matchResourceID` refines the spec's resolution rule (exact key
lookup first, else the first entry in iteration order whose matcher
accepts the key, else not-found); resolution at round-trip level depends
only on method and path, never on the query string; and when an exact key
is present the result is independent of every compiled matcher. -/
theorem c1_resolution (m : resourceMapping) (method path host q q' ih : Str) :
    matchResourceID m method path = resolveSpec m method path ∧
    resolveRequest m ih method ⟨host, path, q⟩ = resolveRequest m ih method ⟨host, path, q'⟩ ∧
    ((m.find? (fun e => decide (e.1 = endpointKey method path))).isSome = true →
      ∀ f, matchResourceID (mapPatterns f m) method path = matchResourceID m method path) := by
  refine ⟨?_, rfl, ?_⟩
  · unfold matchResourceID resolveSpec
    rw [lookup_eq_find]
    cases m.find? (fun e => decide (e.1 = endpointKey method path)) with
    | none =>
      simp only [Option.map_none']
      cases m.find? (fun e => regexAccepts e.2.pattern (endpointKey method path)) with
      | none => rfl
      | some e => rfl
    | some e => rfl
  · intro hsome f
    unfold matchResourceID
    rw [find_mapPatterns]
    obtain ⟨e, he⟩ := Option.isSome_iff_exists.mp hsome
    rw [he]
    simp

theorem c1_resolution_witness :
    matchResourceID (mapPatterns (fun _ => []) fixtureMapping) "POST".toList
        "/api/v1/users".toList
      = matchResourceID fixtureMapping "POST".toList "/api/v1/users".toList ∧
    matchResourceID fixtureMapping "POST".toList "/api/v1/users".toList
      = resolveSpec fixtureMapping "POST".toList "/api/v1/users".toList := by
  have h := c1_resolution fixtureMapping "POST".toList "/api/v1/users".toList
    "custom-domain.com".toList [] [] fixtureInvokeHost
  exact ⟨h.2.2 (by decide) (fun _ => []), h.1⟩

theorem quoteMeta_cons (c : Char) (s : Str) : quoteMeta (c :: s) = escChar c ++ quoteMeta s := rfl

theorem quoteMeta_append (a b : Str) : quoteMeta (a ++ b) = quoteMeta a ++ quoteMeta b := by
  simp [quoteMeta]

theorem mem_quoteMeta {d : Char} {s : Str} (h : d ∈ quoteMeta s) : d = '\\' ∨ d ∈ s := by
  induction s with
  | nil => exact absurd h (by simp [quoteMeta])
  | cons c rest ih =>
    rw [quoteMeta_cons] at h
    rcases List.mem_append.mp h with h | h
    · unfold escChar at h
      split at h
      · simp only [List.mem_cons, List.not_mem_nil, or_false] at h
        rcases h with h | h
        · exact Or.inl h
        · exact Or.inr (h ▸ List.mem_cons_self c rest)
      · simp only [List.mem_cons, List.not_mem_nil, or_false] at h
        exact Or.inr (h ▸ List.mem_cons_self c rest)
    · rcases ih h with h | h
      · exact Or.inl h
      · exact Or.inr (List.mem_cons_of_mem c h)

theorem rpAux_nil (f : Nat) : rpAux f [] = [] := by cases f <;> rfl

theorem rpAux_congr (f1 : Nat) : ∀ (f2 : Nat) (s : Str), s.length ≤ f1 → s.length ≤ f2 →
    rpAux f1 s = rpAux f2 s := by
  induction f1 with
  | zero =>
    intro f2 s h1 _
    have hs : s = [] := List.length_eq_zero.mp (Nat.le_zero.mp h1)
    subst hs
    rw [rpAux_nil, rpAux_nil]
  | succ g1 ih =>
    intro f2 s h1 h2
    cases s with
    | nil => rw [rpAux_nil, rpAux_nil]
    | cons a rest =>
      cases f2 with
      | zero => exact absurd h2 (by simp)
      | succ g2 =>
        simp only [List.length_cons, Nat.succ_le_succ_iff] at h1 h2
        simp only [rpAux]
        by_cases hc : a = '\\' ∧ rest.head? = some lbrace
        · rw [if_pos hc, if_pos hc]
          cases hl : lastCloseIdx (rest.tail.takeWhile (fun c => c ≠ '/')) with
          | some l =>
            simp only [hl]
            have hlen : (rest.tail.drop (l + 1)).length ≤ rest.length := by
              simp only [List.length_drop, List.length_tail]
              omega
            rw [ih g2 _ (le_trans hlen h1) (le_trans hlen h2)]
          | none =>
            simp only [hl]
            rw [ih g2 rest h1 h2]
        · rw [if_neg hc, if_neg hc]
          rw [ih g2 rest h1 h2]

theorem rpAux_eq_rp (f : Nat) (s : Str) (h : s.length ≤ f) :
    rpAux f s = replacePlaceholders s :=
  rpAux_congr f s.length s h le_rfl

theorem rp_cons (a : Char) (rest : Str) :
    replacePlaceholders (a :: rest) =
      if a = '\\' ∧ rest.head? = some lbrace then
        match lastCloseIdx (rest.tail.takeWhile (fun c => c ≠ '/')) with
        | some l => groupToken ++ replacePlaceholders (rest.tail.drop (l + 1))
        | none => a :: replacePlaceholders rest
      else a :: replacePlaceholders rest := by
  show rpAux (a :: rest).length (a :: rest) = _
  rw [List.length_cons]
  simp only [rpAux]
  by_cases hc : a = '\\' ∧ rest.head? = some lbrace
  · rw [if_pos hc, if_pos hc]
    cases hl : lastCloseIdx (rest.tail.takeWhile (fun c => c ≠ '/')) with
    | some l =>
      simp only [hl]
      rw [rpAux_eq_rp]
      simp only [List.length_drop, List.length_tail]
      omega
    | none =>
      simp only [hl]
      rw [rpAux_eq_rp rest.length rest le_rfl]
  · rw [if_neg hc, if_neg hc]
    rw [rpAux_eq_rp rest.length rest le_rfl]

theorem rp_copy (L : Str) : ∀ (r : Str), lbrace ∉ L → r.head? ≠ some lbrace →
    replacePlaceholders (L ++ r) = L ++ replacePlaceholders r := by
  induction L with
  | nil => intro r _ _; rfl
  | cons a L' ihL =>
    intro r hL hr
    have hL' : lbrace ∉ L' := fun h => hL (List.mem_cons_of_mem a h)
    rw [List.cons_append, rp_cons]
    have hc : ¬(a = '\\' ∧ (L' ++ r).head? = some lbrace) := by
      rintro ⟨-, hhead⟩
      cases L' with
      | nil => exact hr (by simpa using hhead)
      | cons b L'' =>
        simp only [List.cons_append, List.head?_cons, Option.some.injEq] at hhead
        exact hL' (hhead ▸ List.mem_cons_self b L'')
    rw [if_neg hc, ihL r hL' hr, List.cons_append]

theorem takeWhile_append_all (p : Char → Bool) (xs : Str) : ∀ (ys : Str),
    (∀ a ∈ xs, p a = true) → (xs ++ ys).takeWhile p = xs ++ ys.takeWhile p := by
  induction xs with
  | nil => intro ys _; rfl
  | cons a xs' ih =>
    intro ys h
    have ha : p a = true := h a (List.mem_cons_self a xs')
    simp only [List.cons_append, List.takeWhile_cons, ha, if_true]
    rw [ih ys (fun b hb => h b (List.mem_cons_of_mem a hb))]

theorem lastIdxOf_concat_self (c : Char) (A : Str) : lastIdxOf c (A ++ [c]) = some A.length := by
  induction A with
  | nil => simp [lastIdxOf]
  | cons a A' ih =>
    rw [List.cons_append]
    unfold lastIdxOf
    rw [ih]
    rfl

theorem drop_append_len (A : Str) : ∀ (B : Str) (k : Nat),
    (A ++ B).drop (A.length + k) = B.drop k := by
  induction A with
  | nil => intro B k; simp
  | cons a A' ih =>
    intro B k
    rw [List.cons_append, List.length_cons]
    have h1 : A'.length + 1 + k = A'.length + k + 1 := by omega
    rw [h1, List.drop_succ_cons, ih]

theorem rp_group (qn : Str) (r : Str) (hs : '/' ∉ qn)
    (hr : r = [] ∨ r.head? = some '/') :
    replacePlaceholders ('\\' :: lbrace :: (qn ++ '\\' :: rbrace :: r)) =
      groupToken ++ replacePlaceholders r := by
  rw [rp_cons]
  rw [if_pos ⟨rfl, rfl⟩]
  have htail : (lbrace :: (qn ++ '\\' :: rbrace :: r)).tail = qn ++ '\\' :: rbrace :: r := rfl
  rw [htail]
  have hrt : r.takeWhile (fun c => c ≠ '/') = [] := by
    rcases hr with hr | hr
    · rw [hr]; rfl
    · cases r with
      | nil => rfl
      | cons d r' =>
        simp only [List.head?_cons, Option.some.injEq] at hr
        subst hr
        simp [List.takeWhile_cons]
  have hall : ∀ a ∈ qn, (fun c => decide (c ≠ '/')) a = true := by
    intro a ha
    have hne : a ≠ '/' := fun he => hs (he ▸ ha)
    exact decide_eq_true hne
  have htw : (qn ++ '\\' :: rbrace :: r).takeWhile (fun c => decide (c ≠ '/')) =
      qn ++ ['\\', rbrace] := by
    rw [takeWhile_append_all (fun c => decide (c ≠ '/')) qn ('\\' :: rbrace :: r) hall]
    have h1 : ('\\' :: rbrace :: r).takeWhile (fun c => decide (c ≠ '/')) =
        '\\' :: rbrace :: r.takeWhile (fun c => decide (c ≠ '/')) := by
      rw [List.takeWhile_cons,
        if_pos (show (fun c => decide (c ≠ '/')) '\\' = true from by decide),
        List.takeWhile_cons,
        if_pos (show (fun c => decide (c ≠ '/')) rbrace = true from by decide)]
    rw [h1, hrt]
  rw [htw]
  have hlast : lastCloseIdx (qn ++ ['\\', rbrace]) = some (qn.length + 1) := by
    unfold lastCloseIdx
    have hsplit : qn ++ ['\\', rbrace] = (qn ++ ['\\']) ++ [rbrace] := by simp
    rw [hsplit, lastIdxOf_concat_self]
    simp
  rw [hlast]
  show groupToken ++ replacePlaceholders ((qn ++ '\\' :: rbrace :: r).drop (qn.length + 1 + 1))
      = groupToken ++ replacePlaceholders r
  have hdrop : (qn ++ '\\' :: rbrace :: r).drop (qn.length + 1 + 1) = r := by
    have h2 : qn.length + 1 + 1 = qn.length + 2 := by omega
    rw [h2, drop_append_len qn ('\\' :: rbrace :: r) 2]
    rfl
  rw [hdrop]

theorem emit_map_lit (x : Str) : emit (x.map PItem.lit) = quoteMeta x := by
  induction x with
  | nil => rfl
  | cons c rest ih =>
    simp only [List.map_cons, emit, List.flatten_cons] at *
    rw [ih]
    rfl

theorem emit_append (a b : List PItem) : emit (a ++ b) = emit a ++ emit b := by
  simp [emit]

theorem not_lbrace_quoteMeta {s : Str} (h : lbrace ∉ s) : lbrace ∉ quoteMeta s := by
  intro hmem
  rcases mem_quoteMeta hmem with hh | hh
  · exact absurd hh (by decide)
  · exact h hh

theorem quoteMeta_slash_head (s : Str) : quoteMeta ('/' :: s) = '/' :: quoteMeta s := rfl

theorem renderPath_qm_shape (segs : List Seg) :
    quoteMeta (renderPath segs) = [] ∨ (quoteMeta (renderPath segs)).head? = some '/' := by
  cases segs with
  | nil => exact Or.inl rfl
  | cons sg rest =>
    right
    have h1 : renderPath (sg :: rest) = '/' :: (sg.render ++ renderPath rest) := rfl
    rw [h1, quoteMeta_slash_head]
    rfl

theorem renderPath_qm_head_ne_lbrace (segs : List Seg) :
    (quoteMeta (renderPath segs)).head? ≠ some lbrace := by
  rcases renderPath_qm_shape segs with h | h <;> rw [h] <;> decide

theorem rp_renderPath (segs : List Seg) (hwf : ∀ sg ∈ segs, segWF sg = true) :
    replacePlaceholders (quoteMeta (renderPath segs)) = emit (segsItems segs) := by
  induction segs with
  | nil => rfl
  | cons sg rest ih =>
    have hwfs := hwf sg (List.mem_cons_self sg rest)
    have hwfr : ∀ s ∈ rest, segWF s = true := fun s hs => hwf s (List.mem_cons_of_mem sg hs)
    have hrhead := renderPath_qm_head_ne_lbrace rest
    cases sg with
    | lit x =>
      have hx : lbrace ∉ x := by simpa [segWF] using hwfs
      have h1 : renderPath (Seg.lit x :: rest) = ('/' :: x) ++ renderPath rest := rfl
      rw [h1, quoteMeta_append]
      have hL : lbrace ∉ quoteMeta ('/' :: x) := by
        apply not_lbrace_quoteMeta
        intro hm
        rcases List.mem_cons.mp hm with hm | hm
        · exact absurd hm (by decide)
        · exact hx hm
      rw [rp_copy (quoteMeta ('/' :: x)) (quoteMeta (renderPath rest)) hL hrhead]
      rw [ih hwfr]
      have h2 : segsItems (Seg.lit x :: rest) = ('/' :: x).map PItem.lit ++ segsItems rest := rfl
      rw [h2, emit_append, emit_map_lit]
    | ph n =>
      have hn : (n ≠ [] ∧ '/' ∉ n) ∧ rbrace ∉ n := by simpa [segWF] using hwfs
      have h1 : renderPath (Seg.ph n :: rest) =
          '/' :: lbrace :: (n ++ [rbrace]) ++ renderPath rest := rfl
      rw [h1]
      have h2 : ('/' : Char) :: lbrace :: (n ++ [rbrace]) ++ renderPath rest =
          ['/'] ++ (lbrace :: (n ++ [rbrace]) ++ renderPath rest) := by simp
      rw [h2, quoteMeta_append]
      have h3 : quoteMeta (lbrace :: (n ++ [rbrace]) ++ renderPath rest) =
          '\\' :: lbrace :: (quoteMeta n ++ '\\' :: rbrace :: quoteMeta (renderPath rest)) := by
        have e1 : lbrace :: (n ++ [rbrace]) ++ renderPath rest =
            lbrace :: (n ++ ([rbrace] ++ renderPath rest)) := by simp
        rw [e1, quoteMeta_cons]
        rw [show escChar lbrace = ['\\', lbrace] from by decide]
        rw [quoteMeta_append, quoteMeta_append]
        rw [show quoteMeta [rbrace] = ['\\', rbrace] from by decide]
        simp
      rw [h3]
      have hq : quoteMeta ['/'] = ['/'] := by decide
      rw [hq]
      rw [rp_copy ['/'] _ (by decide)
        (by simp only [List.head?_cons, Option.some.injEq]; decide)]
      have hslash : '/' ∉ quoteMeta n := by
        intro hm
        rcases mem_quoteMeta hm with hh | hh
        · exact absurd hh (by decide)
        · exact hn.1.2 hh
      have hshape : quoteMeta (renderPath rest) = []
          ∨ (quoteMeta (renderPath rest)).head? = some '/' := renderPath_qm_shape rest
      rw [rp_group (quoteMeta n) (quoteMeta (renderPath rest)) hslash hshape]
      rw [ih hwfr]
      have h4 : segsItems (Seg.ph n :: rest) = PItem.lit '/' :: PItem.grp :: segsItems rest := rfl
      rw [h4]
      have h5 : emit (PItem.lit '/' :: PItem.grp :: segsItems rest) =
          ['/'] ++ (groupToken ++ emit (segsItems rest)) := by
        show emitItem (PItem.lit '/') ++ (emitItem PItem.grp ++ emit (segsItems rest)) = _
        rfl
      rw [h5]

theorem rp_key (method : Str) (segs : List Seg) (hm : lbrace ∉ method)
    (hwf : ∀ sg ∈ segs, segWF sg = true) :
    replacePlaceholders (quoteMeta (endpointKey method (renderPath segs))) =
      emit (method.map PItem.lit ++ PItem.lit '#' :: segsItems segs) := by
  unfold endpointKey
  have h1 : method ++ '#' :: renderPath segs = (method ++ ['#']) ++ renderPath segs := by simp
  rw [h1, quoteMeta_append]
  have hL : lbrace ∉ quoteMeta (method ++ ['#']) := by
    apply not_lbrace_quoteMeta
    intro hmm
    rcases List.mem_append.mp hmm with hmm | hmm
    · exact hm hmm
    · exact absurd hmm (by decide)
  rw [rp_copy _ _ hL (renderPath_qm_head_ne_lbrace segs)]
  rw [rp_renderPath segs hwf]
  rw [emit_append, emit_map_lit]
  have h2 : emit (PItem.lit '#' :: segsItems segs) = ['#'] ++ emit (segsItems segs) := by
    show emitItem (PItem.lit '#') ++ emit (segsItems segs) = _
    rfl
  rw [h2, quoteMeta_append]
  rw [show quoteMeta ['#'] = ['#'] from by decide]
  simp

theorem parseAux_nil (f : Nat) : parseAux f [] = some [] := by cases f <;> rfl

theorem parseAux_congr (f1 : Nat) : ∀ (f2 : Nat) (s : Str), s.length ≤ f1 → s.length ≤ f2 →
    parseAux f1 s = parseAux f2 s := by
  induction f1 with
  | zero =>
    intro f2 s h1 _
    have hs : s = [] := List.length_eq_zero.mp (Nat.le_zero.mp h1)
    subst hs
    rw [parseAux_nil, parseAux_nil]
  | succ g1 ih =>
    intro f2 s h1 h2
    cases s with
    | nil => rw [parseAux_nil, parseAux_nil]
    | cons a rest =>
      cases f2 with
      | zero => exact absurd h2 (by simp)
      | succ g2 =>
        simp only [List.length_cons, Nat.succ_le_succ_iff] at h1 h2
        simp only [parseAux]
        by_cases hg : a = '(' ∧ groupToken.isPrefixOf (a :: rest)
        · rw [if_pos hg, if_pos hg]
          have hlen : ((a :: rest).drop 7).length ≤ rest.length := by
            simp only [List.length_drop, List.length_cons]
            omega
          rw [ih g2 _ (le_trans hlen h1) (le_trans hlen h2)]
        · rw [if_neg hg, if_neg hg]
          by_cases hb : a = '\\'
          · rw [if_pos hb, if_pos hb]
            cases hh : rest.head? with
            | none => rfl
            | some c =>
              simp only []
              have hlen : rest.tail.length ≤ rest.length := by
                simp only [List.length_tail]
                omega
              rw [ih g2 _ (le_trans hlen h1) (le_trans hlen h2)]
          · rw [if_neg hb, if_neg hb]
            by_cases hsp : isSpecial a = true
            · rw [if_pos hsp, if_pos hsp]
            · rw [if_neg hsp, if_neg hsp]
              rw [ih g2 rest h1 h2]

theorem parseAux_eq_parseRE (f : Nat) (s : Str) (h : s.length ≤ f) :
    parseAux f s = parseRE s :=
  parseAux_congr f s.length s h le_rfl

theorem parseRE_cons (a : Char) (rest : Str) :
    parseRE (a :: rest) =
      if a = '(' ∧ groupToken.isPrefixOf (a :: rest) then
        (parseRE ((a :: rest).drop 7)).map (fun its => PItem.grp :: its)
      else if a = '\\' then
        match rest.head? with
        | none => none
        | some c => (parseRE rest.tail).map (fun its => PItem.lit c :: its)
      else if isSpecial a then none
      else (parseRE rest).map (fun its => PItem.lit a :: its) := by
  show parseAux (a :: rest).length (a :: rest) = _
  rw [List.length_cons]
  simp only [parseAux]
  by_cases hg : a = '(' ∧ groupToken.isPrefixOf (a :: rest)
  · rw [if_pos hg, if_pos hg]
    rw [parseAux_eq_parseRE rest.length _ (by simp only [List.length_drop, List.length_cons]; omega)]
  · rw [if_neg hg, if_neg hg]
    by_cases hb : a = '\\'
    · rw [if_pos hb, if_pos hb]
      cases hh : rest.head? with
      | none => rfl
      | some c =>
        simp only []
        rw [parseAux_eq_parseRE rest.length _ (by simp only [List.length_tail]; omega)]
    · rw [if_neg hb, if_neg hb]
      by_cases hsp : isSpecial a = true
      · rw [if_pos hsp, if_pos hsp]
      · rw [if_neg hsp, if_neg hsp]
        rw [parseAux_eq_parseRE rest.length rest le_rfl]

theorem parseRE_emit (its : List PItem) : parseRE (emit its) = some its := by
  induction its with
  | nil => rfl
  | cons it rest ih =>
    cases it with
    | grp =>
      have h0 : emit (PItem.grp :: rest) =
          '(' :: ('[' :: '^' :: '/' :: ']' :: '+' :: ')' :: emit rest) := rfl
      rw [h0, parseRE_cons]
      have hpre : groupToken.isPrefixOf
          ('(' :: '[' :: '^' :: '/' :: ']' :: '+' :: ')' :: emit rest) = true := by
        show groupToken.isPrefixOf (groupToken ++ emit rest) = true
        exact List.isPrefixOf_iff_prefix.mpr (List.prefix_append _ _)
      rw [if_pos ⟨rfl, hpre⟩]
      have hdrop : ('(' :: '[' :: '^' :: '/' :: ']' :: '+' :: ')' :: emit rest).drop 7
          = emit rest := rfl
      rw [hdrop, ih]
      rfl
    | lit c =>
      by_cases hs : isSpecial c = true
      · have h1 : emit (PItem.lit c :: rest) = '\\' :: c :: emit rest := by
          show emitItem (PItem.lit c) ++ emit rest = _
          simp [emitItem, escChar, hs]
        rw [h1, parseRE_cons]
        have hg : ¬(('\\' : Char) = '(' ∧
            groupToken.isPrefixOf ('\\' :: c :: emit rest)) :=
          fun h => absurd h.1 (by decide)
        rw [if_neg hg, if_pos rfl]
        show (parseRE (emit rest)).map (fun its => PItem.lit c :: its)
          = some (PItem.lit c :: rest)
        rw [ih]
        rfl
      · have h1 : emit (PItem.lit c :: rest) = c :: emit rest := by
          show emitItem (PItem.lit c) ++ emit rest = _
          simp [emitItem, escChar, hs]
        rw [h1, parseRE_cons]
        have hne1 : c ≠ '(' := fun h => hs (by rw [h]; rfl)
        have hne2 : c ≠ '\\' := fun h => hs (by rw [h]; rfl)
        rw [if_neg (fun h => hne1 h.1), if_neg hne2, if_neg hs, ih]
        rfl

theorem matchItems_nil_iff (s : Str) : matchItems [] s = true ↔ s = [] := by
  cases s <;> simp [matchItems]

theorem matchItems_lit_iff (c : Char) (its : List PItem) (s : Str) :
    matchItems (.lit c :: its) s = true ↔ ∃ t, s = c :: t ∧ matchItems its t = true := by
  cases s with
  | nil =>
    simp only [matchItems]
    constructor
    · intro h
      exact absurd h (by simp)
    · rintro ⟨t, ht, -⟩
      exact absurd ht (by simp)
  | cons d s' =>
    simp only [matchItems]
    by_cases h : c = d
    · subst h
      rw [if_pos rfl]
      constructor
      · intro hm
        exact ⟨s', rfl, hm⟩
      · rintro ⟨t, ht, hm⟩
        injection ht with h1 h2
        rw [h2]
        exact hm
    · rw [if_neg h]
      constructor
      · intro hh
        exact absurd hh (by simp)
      · rintro ⟨t, ht, -⟩
        injection ht with h1 h2
        exact absurd h1.symm h

theorem matchItems_lits_iff (x : Str) : ∀ (its : List PItem) (s : Str),
    matchItems (x.map PItem.lit ++ its) s = true ↔
      ∃ t, s = x ++ t ∧ matchItems its t = true := by
  induction x with
  | nil =>
    intro its s
    simp
  | cons c x' ihx =>
    intro its s
    simp only [List.map_cons, List.cons_append]
    rw [matchItems_lit_iff]
    constructor
    · rintro ⟨t, rfl, hm⟩
      rcases (ihx its t).mp hm with ⟨t', rfl, hm'⟩
      exact ⟨t', rfl, hm'⟩
    · rintro ⟨t, rfl, hm⟩
      refine ⟨x' ++ t, by simp, ?_⟩
      exact (ihx its (x' ++ t)).mpr ⟨t, rfl, hm⟩

theorem grpScan_iff (next : Str → Bool) (s : Str) :
    grpScan next s = true ↔
      ∃ v t, v ≠ [] ∧ (∀ c ∈ v, c ≠ '/') ∧ s = v ++ t ∧ next t = true := by
  induction s with
  | nil =>
    constructor
    · intro h
      exact absurd h (by simp [grpScan])
    · rintro ⟨v, t, hv, -, hsplit, -⟩
      cases v with
      | nil => exact absurd rfl hv
      | cons a v' => exact absurd hsplit (by simp)
  | cons d s' ih =>
    by_cases hd : d = '/'
    · subst hd
      simp only [grpScan, if_pos rfl]
      constructor
      · intro h
        exact absurd h (by simp)
      · rintro ⟨v, t, hv, hvs, hsplit, -⟩
        cases v with
        | nil => exact absurd rfl hv
        | cons a v' =>
          injection hsplit with h1 h2
          exact absurd h1.symm (hvs a (List.mem_cons_self a v'))
    · have hstep : grpScan next (d :: s') = (next s' || grpScan next s') := by
        simp [grpScan, hd]
      rw [hstep, Bool.or_eq_true]
      constructor
      · rintro (h | h)
        · exact ⟨[d], s', by simp, by simpa using hd, rfl, h⟩
        · rcases ih.mp h with ⟨v, t, hv, hvs, rfl, hn⟩
          refine ⟨d :: v, t, by simp, ?_, rfl, hn⟩
          intro c hc
          rcases List.mem_cons.mp hc with hc | hc
          · rw [hc]; exact hd
          · exact hvs c hc
      · rintro ⟨v, t, hv, hvs, hsplit, hn⟩
        cases v with
        | nil => exact absurd rfl hv
        | cons a v' =>
          injection hsplit with h1 h2
          subst h1
          cases v' with
          | nil =>
            left
            rw [h2]
            exact hn
          | cons b v2 =>
            right
            exact ih.mpr ⟨b :: v2, t, by simp,
              fun c hc => hvs c (List.mem_cons_of_mem d hc), h2, hn⟩

theorem matchItems_grp_iff (its : List PItem) (s : Str) :
    matchItems (.grp :: its) s = true ↔
      ∃ v t, v ≠ [] ∧ (∀ c ∈ v, c ≠ '/') ∧ s = v ++ t ∧ matchItems its t = true := by
  show grpScan (matchItems its) s = true ↔ _
  exact grpScan_iff (matchItems its) s

theorem IsInst_nil_iff (s : Str) : IsInst [] s ↔ s = [] := by
  constructor
  · intro h
    cases h
    rfl
  · intro h
    rw [h]
    exact IsInst.nil

theorem IsInst_lit_iff (x : Str) (rest : List Seg) (s : Str) :
    IsInst (Seg.lit x :: rest) s ↔ ∃ t, s = '/' :: x ++ t ∧ IsInst rest t := by
  constructor
  · intro h
    cases h with
    | lit _ t _ ht => exact ⟨t, rfl, ht⟩
  · rintro ⟨t, rfl, ht⟩
    exact IsInst.lit x t rest ht

theorem IsInst_ph_iff (n : Str) (rest : List Seg) (s : Str) :
    IsInst (Seg.ph n :: rest) s ↔
      ∃ v t, v ≠ [] ∧ (∀ c ∈ v, c ≠ '/') ∧ s = '/' :: v ++ t ∧ IsInst rest t := by
  constructor
  · intro h
    cases h with
    | ph _ v t _ hv hvs ht => exact ⟨v, t, hv, hvs, rfl, ht⟩
  · rintro ⟨v, t, hv, hvs, rfl, ht⟩
    exact IsInst.ph n v t rest hv hvs ht

theorem matchItems_segs_iff (segs : List Seg) : ∀ (s : Str),
    matchItems (segsItems segs) s = true ↔ IsInst segs s := by
  induction segs with
  | nil =>
    intro s
    show matchItems [] s = true ↔ _
    rw [matchItems_nil_iff, IsInst_nil_iff]
  | cons sg rest ih =>
    intro s
    cases sg with
    | lit x =>
      have h1 : segsItems (Seg.lit x :: rest) = ('/' :: x).map PItem.lit ++ segsItems rest := rfl
      rw [h1, matchItems_lits_iff, IsInst_lit_iff]
      constructor
      · rintro ⟨t, rfl, h⟩
        exact ⟨t, rfl, (ih t).mp h⟩
      · rintro ⟨t, rfl, h⟩
        exact ⟨t, rfl, (ih t).mpr h⟩
    | ph n =>
      have h1 : segsItems (Seg.ph n :: rest) = PItem.lit '/' :: PItem.grp :: segsItems rest := rfl
      rw [h1, matchItems_lit_iff, IsInst_ph_iff]
      constructor
      · rintro ⟨t1, rfl, hm⟩
        rcases (matchItems_grp_iff _ _).mp hm with ⟨v, t, hv, hvs, rfl, hm'⟩
        exact ⟨v, t, hv, hvs, rfl, (ih t).mp hm'⟩
      · rintro ⟨v, t, hv, hvs, rfl, hi⟩
        exact ⟨v ++ t, rfl, (matchItems_grp_iff _ _).mpr ⟨v, t, hv, hvs, rfl, (ih t).mpr hi⟩⟩

theorem regexAccepts_resourceRegex (key : Str) (s : Str) (its : List PItem)
    (h : replacePlaceholders (quoteMeta key) = emit its) :
    regexAccepts (resourceRegex key) s = matchItems its s := by
  unfold resourceRegex regexAccepts
  rw [h]
  have hlast : (emit its ++ ['$']).getLast? = some '$' := by
    rw [List.getLast?_concat]
  show (if ('^' : Char) = '^' ∧ (emit its ++ ['$']).getLast? = some '$' then
      match parseRE (emit its ++ ['$']).dropLast with
      | some its2 => matchItems its2 s
      | none => false
    else false) = matchItems its s
  rw [if_pos ⟨rfl, hlast⟩]
  rw [List.dropLast_concat, parseRE_emit]

/-- C2: for every well-formed templated mapping key, the compiled matcher
accepts exactly the `METHOD#path` strings obtained by substituting a
non-empty non-slash value for each placeholder segment — so no proper
prefix or extension of an instance matches, and no placeholder matches
across a `/` boundary. -/
theorem c2_pattern_language (method : Str) (segs : List Seg) (s : Str)
    (hm : lbrace ∉ method) (hwf : ∀ sg ∈ segs, segWF sg = true)
    (_hph : ∃ n, Seg.ph n ∈ segs) :
    regexAccepts (resourceRegex (endpointKey method (renderPath segs))) s = true ↔
      ∃ t, s = method ++ '#' :: t ∧ IsInst segs t := by
  rw [regexAccepts_resourceRegex _ s _ (rp_key method segs hm hwf)]
  rw [matchItems_lits_iff]
  constructor
  · rintro ⟨t, rfl, hmtch⟩
    rw [matchItems_lit_iff] at hmtch
    rcases hmtch with ⟨t', rfl, hmm⟩
    exact ⟨t', rfl, (matchItems_segs_iff segs t').mp hmm⟩
  · rintro ⟨t, rfl, hi⟩
    refine ⟨'#' :: t, rfl, ?_⟩
    rw [matchItems_lit_iff]
    exact ⟨t, rfl, (matchItems_segs_iff segs t).mpr hi⟩

theorem c2_pattern_language_witness :
    regexAccepts (resourceRegex (endpointKey "GET".toList (renderPath
        [Seg.lit "api".toList, Seg.lit "v1".toList, Seg.lit "users".toList,
          Seg.ph "value".toList])))
      "GET#/api/v1/users/john.doe".toList = true := by
  apply (c2_pattern_language "GET".toList
    [Seg.lit "api".toList, Seg.lit "v1".toList, Seg.lit "users".toList, Seg.ph "value".toList]
    "GET#/api/v1/users/john.doe".toList (by decide) (by decide)
    ⟨"value".toList, by decide⟩).mpr
  refine ⟨"/api/v1/users/john.doe".toList, by decide, ?_⟩
  have h1 : ("/api/v1/users/john.doe".toList : Str) =
      '/' :: "api".toList ++ ('/' :: "v1".toList ++ ('/' :: "users".toList ++
        ('/' :: "john.doe".toList ++ []))) := by decide
  rw [h1]
  exact IsInst.lit _ _ _ (IsInst.lit _ _ _ (IsInst.lit _ _ _
    (IsInst.ph "value".toList "john.doe".toList [] [] (by decide) (by decide) IsInst.nil)))

/-- Sanity: the compiled pattern of the fixture's templated key is exactly
the pattern string the repository's `Mappings` test expects. -/
theorem resourceRegex_fixture_pattern :
    resourceRegex (endpointKey "GET".toList (renderPath
        [Seg.lit "api".toList, Seg.lit "v1".toList, Seg.lit "users".toList,
          Seg.ph "value".toList]))
      = "^GET#/api/v1/users/([^/]+)$".toList := by decide
